import Mathlib

/-!
Verification of the text-processing core of the `mypt` repository
(`src/demo/core/text_processor.py`, class `SimpleTextProcessor`) against its
natural-language specification.

Texts are modelled as `List Char`.  Python's `str.strip()` and the regex
class `\s` both classify characters by `Py_UNICODE_ISSPACE`, whose exact
code-point set is reproduced in `isPyWs` below.
-/

/-- The set of characters Python treats as whitespace (`str.strip()` with no
argument, and `\s` in a `str` regex): `Py_UNICODE_ISSPACE`.  Over ASCII this
is `\t \n \v \f \r`, the separators `\x1c`–`\x1f` and the space; beyond ASCII
it adds NEL, NBSP and the Unicode space characters. -/
def isPyWs (c : Char) : Bool :=
  c.toNat = 9 || c.toNat = 10 || c.toNat = 11 || c.toNat = 12 || c.toNat = 13 ||
  (28 ≤ c.toNat && c.toNat ≤ 31) || c.toNat = 32 || c.toNat = 0x85 ||
  c.toNat = 0xa0 || c.toNat = 0x1680 ||
  (0x2000 ≤ c.toNat && c.toNat ≤ 0x200a) ||
  c.toNat = 0x2028 || c.toNat = 0x2029 || c.toNat = 0x202f ||
  c.toNat = 0x205f || c.toNat = 0x3000

/-- Removal of trailing Python whitespace (the right half of `str.strip()`). -/
def rstrip : List Char → List Char
  | [] => []
  | c :: cs =>
    if rstrip cs = [] then (if isPyWs c then [] else [c])
    else c :: rstrip cs

/-- `str.strip()`: remove leading and trailing Python whitespace. -/
def pyStrip (s : List Char) : List Char :=
  rstrip (s.dropWhile isPyWs)

/-- Scanner for `re.sub(r"\t+", " ", s)`: the flag records whether the
previous character belonged to a tab run already replaced by a space. -/
def collapseTabsAux : Bool → List Char → List Char
  | _, [] => []
  | inRun, c :: cs =>
    if c = '\t' then
      if inRun then collapseTabsAux true cs
      else ' ' :: collapseTabsAux true cs
    else c :: collapseTabsAux false cs

/-- `re.sub(r"\t+", " ", s)`: each maximal run of tabs becomes one space. -/
def collapseTabs (s : List Char) : List Char :=
  collapseTabsAux false s

/-- The processor: it owns one immutable text value (`self.text`). -/
structure SimpleTextProcessor where
  text : List Char
deriving DecidableEq

/-- `SimpleTextProcessor.preprocess`: strip, then collapse tab runs. -/
def preprocess (p : SimpleTextProcessor) : List Char :=
  collapseTabs (pyStrip p.text)

/-- Scanner for `re.split(r"\s+", s)`: `inRun` records whether the previous
character belonged to the current whitespace match, `cur` accumulates the
current field in reverse.  Like Python, a leading (resp. trailing) match
produces an empty first (resp. last) field. -/
def reSplitWsAux : Bool → List Char → List Char → List (List Char)
  | _, cur, [] => [cur.reverse]
  | inRun, cur, c :: cs =>
    if isPyWs c then
      if inRun then reSplitWsAux true cur cs
      else cur.reverse :: reSplitWsAux true [] cs
    else reSplitWsAux false (c :: cur) cs

/-- `re.split(r"\s+", s)`. -/
def reSplitWs (s : List Char) : List (List Char) :=
  reSplitWsAux false [] s

/-- `SimpleTextProcessor.tokenize`: preprocess; empty text gives no tokens,
otherwise split on whitespace runs. -/
def tokenize (p : SimpleTextProcessor) : List (List Char) :=
  let pre := preprocess p
  if pre = [] then [] else reSplitWs pre

/-- The `@profile` decorator from `src/demo/utils/profiling.py`: a no-op
wrapper that returns a function with the same behaviour. -/
def profile {α β : Type} (f : α → β) : α → β :=
  fun a => f a

/-- `SimpleTextProcessor.count_words` (decorated with `@profile`). -/
def count_words (p : SimpleTextProcessor) : Nat :=
  profile (fun q => (tokenize q).length) p

/-- `SimpleTextProcessor.word_frequency` on an argument already known to be a
string: `tokens.count(word)`. -/
def word_frequency (p : SimpleTextProcessor) (w : List Char) : Nat :=
  (tokenize p).count w

/-- Python runtime values that can be passed where a `str` is expected;
enough constructors to exercise the dynamic type check. -/
inductive PyVal where
  | str (s : List Char)
  | int (n : Int)
  | boolean (b : Bool)
  | pyNone
  | pyList (xs : List Char)
deriving DecidableEq

/-- `type(v).__name__`. -/
def typeName : PyVal → List Char
  | .str _ => "str".toList
  | .int _ => "int".toList
  | .boolean _ => "bool".toList
  | .pyNone => "NoneType".toList
  | .pyList _ => "list".toList

/-- `isinstance(v, str)`. -/
def PyVal.isStr : PyVal → Bool
  | .str _ => true
  | _ => false

/-- The `TypeError` raised by `word_frequency`, carrying its message. -/
structure PyTypeError where
  msg : List Char
deriving DecidableEq

/-- `SimpleTextProcessor.word_frequency` with its dynamic argument check:
`if not isinstance(word, str): raise TypeError(f"Expected str, got ...")`.
The method never assigns to `self`, so it returns the processor unchanged
together with the result or the raised error. -/
def word_frequency_dyn (p : SimpleTextProcessor) (w : PyVal) :
    SimpleTextProcessor × Except PyTypeError Nat :=
  match w with
  | .str s => (p, Except.ok (word_frequency p s))
  | _ => (p, Except.error ⟨"Expected str, got ".toList ++ typeName w⟩)

/-! ## Spec-side definitions

Independent transcriptions of the specification's wording, to be compared
with the code-side models above. -/

theorem dropWhile_length_le {α : Type} (p : α → Bool) (l : List α) :
    (l.dropWhile p).length ≤ l.length := by
  induction l with
  | nil => simp [List.dropWhile]
  | cons c cs ih =>
    by_cases h : p c
    · simp only [List.dropWhile, h]
      exact Nat.le_succ_of_le ih
    · simp [List.dropWhile, h]

/-- The six whitespace characters the specification enumerates: space, tab,
newline, carriage return, form feed, vertical tab. -/
def isClaimedWs (c : Char) : Bool :=
  c = ' ' || c = '\t' || c = '\n' || c = '\r' ||
  c.toNat = 12 || c.toNat = 11

/-- Spec-side strip over an arbitrary whitespace class: drop the leading
run, then drop the trailing run (via reversal). -/
def stripSpec (ws : Char → Bool) (s : List Char) : List Char :=
  ((s.dropWhile ws).reverse.dropWhile ws).reverse

/-- Spec-side tab collapsing: "replace every maximal contiguous run of
one-or-more tab characters with exactly one space character". -/
def collapseTabsSpec : List Char → List Char
  | [] => []
  | c :: cs =>
    if c = '\t' then ' ' :: collapseTabsSpec (cs.dropWhile (fun x => x = '\t'))
    else c :: collapseTabsSpec cs
termination_by s => s.length
decreasing_by
  · exact Nat.lt_succ_of_le (dropWhile_length_le _ _)
  · exact Nat.lt_succ_of_le (Nat.le_refl _)

/-- `normalize` exactly as claim C1 words it: strip the six listed
whitespace characters, then collapse tab runs. -/
def normalize_claimed (s : List Char) : List Char :=
  collapseTabsSpec (stripSpec isClaimedWs s)

/-- `normalize` as amended: strip Python whitespace, then collapse tab
runs. -/
def normalize_spec (s : List Char) : List Char :=
  collapseTabsSpec (stripSpec isPyWs s)

/-- Spec-side tokenization of already-normalized text: "split on maximal
runs of whitespace characters, discarding the separators", returning the
non-empty substrings in order. -/
def splitDiscard : List Char → List (List Char)
  | [] => []
  | c :: cs =>
    if isPyWs c then splitDiscard (cs.dropWhile isPyWs)
    else (c :: cs.takeWhile (fun x => !isPyWs x)) ::
      splitDiscard ((cs.dropWhile (fun x => !isPyWs x)))
termination_by s => s.length
decreasing_by
  · exact Nat.lt_succ_of_le (dropWhile_length_le _ _)
  · exact Nat.lt_succ_of_le (dropWhile_length_le _ _)

/-- `tokenize` exactly as claim C2 words it. -/
def tokenize_spec (s : List Char) : List (List Char) :=
  let n := normalize_spec s
  if n = [] then [] else splitDiscard n

/-- Spec-side whitespace splitting in accumulator style (`cur` holds the
current token reversed); used as a bridge between `reSplitWs` and
`splitDiscard`. -/
def wordsAux : List Char → List Char → List (List Char)
  | cur, [] => if cur = [] then [] else [cur.reverse]
  | cur, c :: cs =>
    if isPyWs c then
      if cur = [] then wordsAux [] cs else cur.reverse :: wordsAux [] cs
    else wordsAux (c :: cur) cs

/-! ## Helper lemmas -/

/-- The first character, if any, is not whitespace. -/
def headOk : List Char → Bool
  | [] => true
  | c :: _ => !isPyWs c

/-- The last character, if any, is not whitespace. -/
def lastOk : List Char → Bool
  | [] => true
  | [c] => !isPyWs c
  | _ :: c :: cs => lastOk (c :: cs)

/-- No tab characters occur. -/
def noTabs (s : List Char) : Bool :=
  s.all (fun c => !(c = '\t'))

theorem lastOk_cons_cons (a c : Char) (cs : List Char) :
    lastOk (a :: c :: cs) = lastOk (c :: cs) := rfl

theorem rstrip_cons (c : Char) (cs : List Char) :
    rstrip (c :: cs) =
      if rstrip cs = [] then (if isPyWs c then [] else [c])
      else c :: rstrip cs := rfl

theorem collapseTabsAux_cons (b : Bool) (c : Char) (cs : List Char) :
    collapseTabsAux b (c :: cs) =
      if c = '\t' then
        if b then collapseTabsAux true cs else ' ' :: collapseTabsAux true cs
      else c :: collapseTabsAux false cs := rfl

theorem reSplitWsAux_cons (b : Bool) (cur : List Char) (c : Char)
    (cs : List Char) :
    reSplitWsAux b cur (c :: cs) =
      if isPyWs c then
        if b then reSplitWsAux true cur cs
        else cur.reverse :: reSplitWsAux true [] cs
      else reSplitWsAux false (c :: cur) cs := rfl

theorem wordsAux_cons (cur : List Char) (c : Char) (cs : List Char) :
    wordsAux cur (c :: cs) =
      if isPyWs c then
        if cur = [] then wordsAux [] cs else cur.reverse :: wordsAux [] cs
      else wordsAux (c :: cur) cs := rfl

theorem headOk_dropWhile (s : List Char) :
    headOk (s.dropWhile isPyWs) = true := by
  induction s with
  | nil => rfl
  | cons c cs ih =>
    by_cases h : isPyWs c
    · simpa [List.dropWhile, h] using ih
    · simp [List.dropWhile, h, headOk]

theorem dropWhile_eq_self_of_headOk {s : List Char} (h : headOk s = true) :
    s.dropWhile isPyWs = s := by
  cases s with
  | nil => rfl
  | cons c cs =>
    simp only [headOk, Bool.not_eq_true'] at h
    simp [List.dropWhile, h]

theorem rstrip_headOk {s : List Char} (h : headOk s = true) :
    headOk (rstrip s) = true := by
  cases s with
  | nil => exact h
  | cons c cs =>
    simp only [headOk, Bool.not_eq_true'] at h
    rw [rstrip_cons]
    by_cases hr : rstrip cs = []
    · rw [if_pos hr]
      simp [headOk, h]
    · rw [if_neg hr]
      simp [headOk, h]

theorem rstrip_lastOk (s : List Char) : lastOk (rstrip s) = true := by
  induction s with
  | nil => rfl
  | cons c cs ih =>
    rw [rstrip_cons]
    by_cases hr : rstrip cs = []
    · rw [if_pos hr]
      by_cases hc : isPyWs c
      · simp [hc, lastOk]
      · simp [hc, lastOk]
    · rw [if_neg hr]
      cases hrr : rstrip cs with
      | nil => exact absurd hrr hr
      | cons r rs =>
        rw [hrr] at ih
        rw [lastOk_cons_cons]
        exact ih

theorem rstrip_eq_self_of_lastOk {s : List Char} (h : lastOk s = true) :
    rstrip s = s := by
  induction s with
  | nil => rfl
  | cons c cs ih =>
    cases cs with
    | nil =>
      simp only [lastOk, Bool.not_eq_true'] at h
      simp [rstrip, h]
    | cons d ds =>
      rw [lastOk_cons_cons] at h
      have hds := ih h
      rw [rstrip_cons, hds]
      simp

theorem pyStrip_headOk (s : List Char) : headOk (pyStrip s) = true :=
  rstrip_headOk (headOk_dropWhile s)

theorem pyStrip_lastOk (s : List Char) : lastOk (pyStrip s) = true :=
  rstrip_lastOk _

theorem pyStrip_idem (s : List Char) : pyStrip (pyStrip s) = pyStrip s := by
  unfold pyStrip
  rw [dropWhile_eq_self_of_headOk (rstrip_headOk (headOk_dropWhile s)),
    rstrip_eq_self_of_lastOk (rstrip_lastOk _)]

theorem collapseTabsAux_noTabs (b : Bool) (s : List Char) :
    noTabs (collapseTabsAux b s) = true := by
  induction s generalizing b with
  | nil => rfl
  | cons c cs ih =>
    by_cases hc : c = '\t'
    · cases b with
      | true => simpa [collapseTabsAux, hc] using ih true
      | false =>
        simp only [collapseTabsAux, hc, if_pos, if_neg]
        simpa [noTabs] using ih true
    · simp only [collapseTabsAux, hc, if_neg]
      simpa [noTabs, hc] using ih false

theorem collapseTabsAux_eq_self_of_noTabs {s : List Char} (b : Bool)
    (h : noTabs s = true) : collapseTabsAux b s = s := by
  induction s generalizing b with
  | nil => rfl
  | cons c cs ih =>
    simp only [noTabs, List.all_cons, Bool.and_eq_true, Bool.not_eq_true',
      decide_eq_false_iff_not] at h
    simp only [collapseTabsAux, if_neg h.1]
    exact congrArg _ (ih false (by simpa [noTabs] using h.2))

theorem collapseTabsAux_headOk {s : List Char} (b : Bool)
    (h : headOk s = true) : headOk (collapseTabsAux b s) = true := by
  cases s with
  | nil => rfl
  | cons c cs =>
    simp only [headOk, Bool.not_eq_true'] at h
    have hc : ¬(c = '\t') := by
      intro he
      rw [he] at h
      exact absurd h (by decide)
    simp [collapseTabsAux, hc, headOk, h]

theorem collapseTabsAux_lastOk {s : List Char} (hne : s ≠ [])
    (h : lastOk s = true) (b : Bool) :
    collapseTabsAux b s ≠ [] ∧ lastOk (collapseTabsAux b s) = true := by
  induction s generalizing b with
  | nil => exact absurd rfl hne
  | cons c cs ih =>
    cases cs with
    | nil =>
      simp only [lastOk, Bool.not_eq_true'] at h
      have hc : ¬(c = '\t') := by
        intro he
        rw [he] at h
        exact absurd h (by decide)
      simp [collapseTabsAux, hc, lastOk, h]
    | cons d ds =>
      rw [lastOk_cons_cons] at h
      have ihd := ih (List.cons_ne_nil d ds) h
      by_cases hc : c = '\t'
      · rw [collapseTabsAux_cons, if_pos hc]
        obtain ⟨h1, h2⟩ := ihd true
        cases b with
        | true => exact ⟨h1, h2⟩
        | false =>
          show ' ' :: collapseTabsAux true (d :: ds) ≠ [] ∧
            lastOk (' ' :: collapseTabsAux true (d :: ds)) = true
          refine ⟨List.cons_ne_nil _ _, ?_⟩
          cases hcc : collapseTabsAux true (d :: ds) with
          | nil => exact absurd hcc h1
          | cons x xs =>
            rw [hcc] at h2
            rw [lastOk_cons_cons]
            exact h2
      · rw [collapseTabsAux_cons, if_neg hc]
        obtain ⟨h1, h2⟩ := ihd false
        refine ⟨List.cons_ne_nil _ _, ?_⟩
        cases hcc : collapseTabsAux false (d :: ds) with
        | nil => exact absurd hcc h1
        | cons x xs =>
          rw [hcc] at h2
          rw [lastOk_cons_cons]
          exact h2

theorem dropWhile_cons_pos {α : Type} {p : α → Bool} {c : α} (cs : List α)
    (h : p c = true) : (c :: cs).dropWhile p = cs.dropWhile p := by
  simp [List.dropWhile, h]

theorem dropWhile_cons_neg {α : Type} {p : α → Bool} {c : α} (cs : List α)
    (h : p c = false) : (c :: cs).dropWhile p = c :: cs := by
  simp [List.dropWhile, h]

theorem dropWhile_head_false {α : Type} {p : α → Bool} {c : α} {r : List α} :
    ∀ {l : List α}, l.dropWhile p = c :: r → p c = false := by
  intro l
  induction l with
  | nil => intro h; exact absurd h (by simp [List.dropWhile])
  | cons a l ih =>
    intro h
    by_cases ha : p a = true
    · rw [dropWhile_cons_pos _ ha] at h
      exact ih h
    · have ha' : p a = false := by simpa using ha
      rw [dropWhile_cons_neg _ ha'] at h
      injection h with h1 h2
      rw [← h1]
      exact ha'

theorem collapseTabsAux_eq_spec (s : List Char) :
    collapseTabsAux true s = collapseTabsSpec (s.dropWhile (fun x => x = '\t')) ∧
    collapseTabsAux false s = collapseTabsSpec s := by
  induction s with
  | nil => refine ⟨?_, ?_⟩ <;> simp [collapseTabsSpec, collapseTabsAux]
  | cons c cs ih =>
    by_cases hc : c = '\t'
    · constructor
      · rw [collapseTabsAux_cons, if_pos hc, if_pos rfl,
          dropWhile_cons_pos _ (by simp [hc])]
        exact ih.1
      · rw [collapseTabsAux_cons, if_pos hc, if_neg (by simp)]
        rw [ih.1, collapseTabsSpec, if_pos hc]
    · constructor
      · rw [collapseTabsAux_cons, if_neg hc,
          dropWhile_cons_neg _ (by simp [hc])]
        rw [ih.2, collapseTabsSpec, if_neg hc]
      · rw [collapseTabsAux_cons, if_neg hc, ih.2, collapseTabsSpec, if_neg hc]

theorem dropWhile_append_singleton {α : Type} [DecidableEq α] (p : α → Bool)
    (l : List α) (c : α) :
    (l ++ [c]).dropWhile p =
      if l.dropWhile p = [] then [c].dropWhile p
      else l.dropWhile p ++ [c] := by
  induction l with
  | nil => simp
  | cons a l ih =>
    by_cases ha : p a = true
    · rw [List.cons_append, dropWhile_cons_pos _ ha, ih, dropWhile_cons_pos _ ha]
    · have ha' : p a = false := by simpa using ha
      rw [List.cons_append, dropWhile_cons_neg _ ha', dropWhile_cons_neg _ ha']
      rw [if_neg (List.cons_ne_nil a l), List.cons_append]

theorem rstrip_eq_reverse_dropWhile (l : List Char) :
    rstrip l = (l.reverse.dropWhile isPyWs).reverse := by
  induction l with
  | nil => rfl
  | cons c cs ih =>
    rw [rstrip_cons, List.reverse_cons, dropWhile_append_singleton]
    by_cases hr : rstrip cs = []
    · rw [if_pos hr]
      have h0 : cs.reverse.dropWhile isPyWs = [] := by
        rw [ih] at hr
        simpa using hr
      rw [if_pos h0]
      by_cases hc : isPyWs c = true
      · rw [if_pos hc, dropWhile_cons_pos _ hc]
        rfl
      · have hc' : isPyWs c = false := by simpa using hc
        rw [if_neg (by simp [hc']), dropWhile_cons_neg _ hc']
        rfl
    · rw [if_neg hr]
      have h0 : ¬cs.reverse.dropWhile isPyWs = [] := by
        intro h
        apply hr
        rw [ih, h]
        rfl
      rw [if_neg h0, List.reverse_append, ih]
      rfl

theorem pyStrip_eq_stripSpec (s : List Char) :
    pyStrip s = stripSpec isPyWs s := by
  unfold pyStrip stripSpec
  rw [rstrip_eq_reverse_dropWhile]

theorem preprocess_eq_normalize_spec (s : List Char) :
    preprocess ⟨s⟩ = normalize_spec s := by
  show collapseTabsAux false (pyStrip s) = normalize_spec s
  rw [(collapseTabsAux_eq_spec _).2, pyStrip_eq_stripSpec]
  rfl

theorem reSplit_eq_words (s : List Char) :
    (∀ cur, cur ≠ [] → lastOk s = true →
      reSplitWsAux false cur s = wordsAux cur s) ∧
    (s ≠ [] → lastOk s = true → reSplitWsAux true [] s = wordsAux [] s) := by
  induction s with
  | nil =>
    constructor
    · intro cur hcur _
      simp [reSplitWsAux, wordsAux, hcur]
    · intro h
      exact absurd rfl h
  | cons c cs ih =>
    have hcs_ne : isPyWs c = true → lastOk (c :: cs) = true → cs ≠ [] := by
      intro hc hlast he
      rw [he] at hlast
      simp only [lastOk, Bool.not_eq_true'] at hlast
      rw [hc] at hlast
      exact absurd hlast (by decide)
    have hlcs : lastOk (c :: cs) = true → lastOk cs = true := by
      intro hlast
      cases cs with
      | nil => rfl
      | cons d ds => rw [← lastOk_cons_cons c d ds]; exact hlast
    constructor
    · intro cur hcur hlast
      by_cases hc : isPyWs c = true
      · rw [reSplitWsAux_cons, if_pos hc, if_neg (by simp),
          wordsAux_cons, if_pos hc, if_neg hcur]
        rw [ih.2 (hcs_ne hc hlast) (hlcs hlast)]
      · have hc' : isPyWs c = false := by simpa using hc
        rw [reSplitWsAux_cons, if_neg (by simp [hc']),
          wordsAux_cons, if_neg (by simp [hc'])]
        exact ih.1 (c :: cur) (List.cons_ne_nil c cur) (hlcs hlast)
    · intro _ hlast
      by_cases hc : isPyWs c = true
      · rw [reSplitWsAux_cons, if_pos hc, if_pos rfl,
          wordsAux_cons, if_pos hc, if_pos rfl]
        exact ih.2 (hcs_ne hc hlast) (hlcs hlast)
      · have hc' : isPyWs c = false := by simpa using hc
        rw [reSplitWsAux_cons, if_neg (by simp [hc']),
          wordsAux_cons, if_neg (by simp [hc'])]
        exact ih.1 (c :: []) (List.cons_ne_nil c []) (hlcs hlast)

theorem preprocess_ne_nil {t : List Char} (h : pyStrip t ≠ []) :
    preprocess ⟨t⟩ ≠ [] :=
  (collapseTabsAux_lastOk h (pyStrip_lastOk t) false).1

theorem preprocess_lastOk (t : List Char) : lastOk (preprocess ⟨t⟩) = true := by
  by_cases h : pyStrip t = []
  · show lastOk (collapseTabsAux false (pyStrip t)) = true
    rw [h]
    rfl
  · exact (collapseTabsAux_lastOk h (pyStrip_lastOk t) false).2

theorem preprocess_headOk (t : List Char) : headOk (preprocess ⟨t⟩) = true :=
  collapseTabsAux_headOk false (pyStrip_headOk t)

theorem tokenize_eq_wordsAux (p : SimpleTextProcessor) :
    tokenize p = wordsAux [] (preprocess p) := by
  obtain ⟨t⟩ := p
  show (if preprocess ⟨t⟩ = [] then [] else reSplitWs (preprocess ⟨t⟩)) =
    wordsAux [] (preprocess ⟨t⟩)
  by_cases h : preprocess ⟨t⟩ = []
  · rw [if_pos h, h]
    rfl
  · rw [if_neg h]
    have hhead := preprocess_headOk t
    have hlast := preprocess_lastOk t
    cases hpre : preprocess ⟨t⟩ with
    | nil => exact absurd hpre h
    | cons c cs =>
      rw [hpre] at hhead hlast
      have hc : isPyWs c = false := by
        simpa [headOk, Bool.not_eq_true'] using hhead
      have hlcs : lastOk cs = true := by
        cases cs with
        | nil => rfl
        | cons d ds => rw [← lastOk_cons_cons c d ds]; exact hlast
      show reSplitWsAux false [] (c :: cs) = wordsAux [] (c :: cs)
      rw [reSplitWsAux_cons, if_neg (by simp [hc]),
        wordsAux_cons, if_neg (by simp [hc])]
      exact (reSplit_eq_words cs).1 (c :: []) (List.cons_ne_nil c []) hlcs

theorem wordsAux_nil_dropWhile (cs : List Char) :
    wordsAux [] cs = wordsAux [] (cs.dropWhile isPyWs) := by
  induction cs with
  | nil => rfl
  | cons c cs ih =>
    by_cases hc : isPyWs c = true
    · rw [wordsAux_cons, if_pos hc, if_pos rfl, dropWhile_cons_pos _ hc]
      exact ih
    · have hc' : isPyWs c = false := by simpa using hc
      rw [dropWhile_cons_neg _ hc']

theorem wordsAux_takeDrop (cs : List Char) :
    ∀ cur, wordsAux cur cs =
      wordsAux ((cs.takeWhile (fun x => !isPyWs x)).reverse ++ cur)
        (cs.dropWhile (fun x => !isPyWs x)) := by
  induction cs with
  | nil => intro cur; rfl
  | cons c cs ih =>
    intro cur
    by_cases hc : isPyWs c = true
    · have h1 : (fun x => !isPyWs x) c = false := by simp [hc]
      rw [List.takeWhile_cons_of_neg (by simp [hc]),
        @dropWhile_cons_neg Char (fun x => !isPyWs x) c cs h1,
        List.reverse_nil, List.nil_append]
    · have hc' : isPyWs c = false := by simpa using hc
      have h1 : (fun x => !isPyWs x) c = true := by simp [hc']
      rw [wordsAux_cons, if_neg (by simp [hc']), ih (c :: cur),
        List.takeWhile_cons_of_pos (by simp [hc']),
        @dropWhile_cons_pos Char (fun x => !isPyWs x) c cs h1,
        List.reverse_cons, List.append_assoc, List.singleton_append]

set_option maxHeartbeats 1000000 in
theorem splitDiscard_nil : splitDiscard [] = [] := by
  rw [splitDiscard]

set_option maxHeartbeats 1000000 in
theorem splitDiscard_cons (c : Char) (cs : List Char) :
    splitDiscard (c :: cs) =
      if isPyWs c then splitDiscard (cs.dropWhile isPyWs)
      else (c :: cs.takeWhile (fun x => !isPyWs x)) ::
        splitDiscard ((cs.dropWhile (fun x => !isPyWs x))) := by
  rw [splitDiscard]

theorem wordsAux_eq_splitDiscard_aux :
    ∀ (n : Nat) (s : List Char), s.length ≤ n →
      wordsAux [] s = splitDiscard s := by
  intro n
  induction n with
  | zero =>
    intro s hs
    rw [List.length_eq_zero.mp (Nat.le_zero.mp hs), splitDiscard_nil]
    rfl
  | succ n ih =>
    intro s hs
    cases s with
    | nil => rw [splitDiscard_nil]; rfl
    | cons c cs =>
      have hcs : cs.length ≤ n := Nat.lt_succ_iff.mp hs
      by_cases hc : isPyWs c = true
      · rw [wordsAux_cons, if_pos hc, if_pos rfl, wordsAux_nil_dropWhile,
          splitDiscard_cons, if_pos hc]
        exact ih _ (Nat.le_trans (dropWhile_length_le _ _) hcs)
      · have hc' : isPyWs c = false := by simpa using hc
        rw [wordsAux_cons, if_neg (by simp [hc']), wordsAux_takeDrop,
          splitDiscard_cons, if_neg (by simp [hc'])]
        cases hd : cs.dropWhile (fun x => !isPyWs x) with
        | nil =>
          rw [show wordsAux ((cs.takeWhile (fun x => !isPyWs x)).reverse ++ [c]) [] =
            [((cs.takeWhile (fun x => !isPyWs x)).reverse ++ [c]).reverse] from
            by rw [wordsAux]; exact if_neg (by simp)]
          rw [List.reverse_append, List.reverse_reverse, splitDiscard_nil]
          rfl
        | cons d ds =>
          have hdw : (fun x => !isPyWs x) d = false :=
            @dropWhile_head_false Char (fun x => !isPyWs x) d ds cs hd
          have hd' : isPyWs d = true := by simpa using hdw
          rw [wordsAux_cons, if_pos hd', if_neg (by simp),
            List.reverse_append, List.reverse_reverse]
          have hlen : ds.length ≤ n := by
            have h1 : ds.length < (d :: ds).length := Nat.lt_succ_self _
            have h2 : (d :: ds).length ≤ cs.length := by
              rw [← hd]
              exact dropWhile_length_le _ _
            exact Nat.le_trans (Nat.le_of_lt (Nat.lt_of_lt_of_le h1 h2)) hcs
          rw [wordsAux_nil_dropWhile,
            ih _ (Nat.le_trans (dropWhile_length_le _ _) hlen),
            splitDiscard_cons, if_pos hd']
          rfl

theorem wordsAux_eq_splitDiscard (s : List Char) :
    wordsAux [] s = splitDiscard s :=
  wordsAux_eq_splitDiscard_aux s.length s (Nat.le_refl _)

theorem mem_wordsAux_ne_nil :
    ∀ (s cur : List Char) (x : List Char), x ∈ wordsAux cur s → x ≠ [] := by
  intro s
  induction s with
  | nil =>
    intro cur x hx
    by_cases hcur : cur = []
    · rw [show wordsAux cur [] = [] from by rw [wordsAux]; exact if_pos hcur] at hx
      exact absurd hx (List.not_mem_nil x)
    · rw [show wordsAux cur [] = [cur.reverse] from by rw [wordsAux]; exact if_neg hcur] at hx
      rw [List.mem_singleton.mp hx]
      simpa using hcur
  | cons c cs ih =>
    intro cur x hx
    by_cases hc : isPyWs c = true
    · rw [wordsAux_cons, if_pos hc] at hx
      by_cases hcur : cur = []
      · rw [if_pos hcur] at hx
        exact ih [] x hx
      · rw [if_neg hcur] at hx
        rcases List.mem_cons.mp hx with h | h
        · rw [h]
          simpa using hcur
        · exact ih [] x h
    · rw [wordsAux_cons, if_neg (by simpa using hc)] at hx
      exact ih (c :: cur) x hx

theorem mem_wordsAux_no_ws :
    ∀ (s cur : List Char), (∀ d ∈ cur, isPyWs d = false) →
      ∀ x ∈ wordsAux cur s, ∀ c ∈ x, isPyWs c = false := by
  intro s
  induction s with
  | nil =>
    intro cur hcur x hx c hcx
    by_cases h : cur = []
    · rw [show wordsAux cur [] = [] from by rw [wordsAux]; exact if_pos h] at hx
      exact absurd hx (List.not_mem_nil x)
    · rw [show wordsAux cur [] = [cur.reverse] from by rw [wordsAux]; exact if_neg h] at hx
      rw [List.mem_singleton.mp hx] at hcx
      exact hcur c (List.mem_reverse.mp hcx)
  | cons a cs ih =>
    intro cur hcur x hx c hcx
    by_cases ha : isPyWs a = true
    · rw [wordsAux_cons, if_pos ha] at hx
      by_cases h : cur = []
      · rw [if_pos h] at hx
        exact ih [] (by intro d hd; exact absurd hd (List.not_mem_nil d)) x hx c hcx
      · rw [if_neg h] at hx
        rcases List.mem_cons.mp hx with h2 | h2
        · rw [h2] at hcx
          exact hcur c (List.mem_reverse.mp hcx)
        · exact ih [] (by intro d hd; exact absurd hd (List.not_mem_nil d)) x h2 c hcx
    · have ha' : isPyWs a = false := by simpa using ha
      rw [wordsAux_cons, if_neg (by simp [ha'])] at hx
      refine ih (a :: cur) ?_ x hx c hcx
      intro d hd
      rcases List.mem_cons.mp hd with h2 | h2
      · rw [h2]; exact ha'
      · exact hcur d h2

theorem reSplitWsAux_ne_nil (s : List Char) :
    ∀ (b : Bool) (cur : List Char), reSplitWsAux b cur s ≠ [] := by
  induction s with
  | nil => intro b cur; exact List.cons_ne_nil _ _
  | cons c cs ih =>
    intro b cur
    by_cases hc : isPyWs c = true
    · cases b with
      | true =>
        rw [reSplitWsAux_cons, if_pos hc, if_pos rfl]
        exact ih true cur
      | false =>
        rw [reSplitWsAux_cons, if_pos hc, if_neg (by simp)]
        exact List.cons_ne_nil _ _
    · rw [reSplitWsAux_cons, if_neg (by simpa using hc)]
      exact ih false (c :: cur)

theorem count_beq_eq_count_dec (l : List (List Char)) (a : List Char) :
    @List.count (List Char) List.instBEq a l =
      @List.count (List Char) instBEqOfDecidableEq a l := by
  induction l with
  | nil => rfl
  | cons b l ih =>
    by_cases hb : a = b
    · subst hb
      simp [List.count_cons, ih]
    · simp [List.count_cons, ih, hb]

theorem count_eq_filter_length {α : Type} [DecidableEq α] (l : List α)
    (a : α) : l.count a = (l.filter (fun x => x = a)).length := by
  induction l with
  | nil => rfl
  | cons b l ih =>
    by_cases hb : b = a
    · subst hb
      simp [List.count_cons, List.filter_cons, ih]
    · have hb' : ¬(a = b) := fun h => hb h.symm
      simp [List.count_cons, List.filter_cons, hb, hb', ih]

/-! ## Claims -/

/-- C1 counterexample: on the input `"\x1c" + "a"` the code strips the
character U+001C (Python treats it as whitespace), while a normalize that
strips only the six enumerated whitespace characters would keep it; so
`preprocess` does not equal the claimed normalization. -/
theorem normalize_c1_counterexample :
    preprocess ⟨[Char.ofNat 28, 'a']⟩ ≠
      normalize_claimed [Char.ofNat 28, 'a'] := by
  have h : normalize_claimed [Char.ofNat 28, 'a'] =
      collapseTabs (stripSpec isClaimedWs [Char.ofNat 28, 'a']) :=
    ((collapseTabsAux_eq_spec (stripSpec isClaimedWs [Char.ofNat 28, 'a'])).2).symm
  rw [h]
  decide

/-- C1 (amended): for every input text, `preprocess` returns the input with
leading and trailing Python whitespace (the six listed characters together
with the rest of Python's Unicode whitespace set) removed, and then every
maximal contiguous run of tabs replaced by exactly one space, leaving other
characters unchanged; it is total by construction. -/
theorem normalize_strips_then_collapses (s : List Char) :
    preprocess ⟨s⟩ = normalize_spec s :=
  preprocess_eq_normalize_spec s

/-- C2: `tokenize` computes the normalization; if it is empty it returns the
empty sequence, otherwise the non-empty substrings obtained by splitting on
maximal whitespace runs, separators discarded, in left-to-right order. -/
theorem tokenize_follows_spec (p : SimpleTextProcessor) :
    tokenize p = tokenize_spec p.text := by
  obtain ⟨t⟩ := p
  rw [tokenize_eq_wordsAux, wordsAux_eq_splitDiscard]
  show splitDiscard (preprocess ⟨t⟩) =
    if normalize_spec t = [] then [] else splitDiscard (normalize_spec t)
  rw [preprocess_eq_normalize_spec]
  by_cases h : normalize_spec t = []
  · rw [if_pos h, h, splitDiscard_nil]
  · rw [if_neg h]

/-- C3: `word_frequency` returns exactly the number of tokens equal to the
query word, by case-sensitive exact equality of character sequences, with
no trimming or normalization of the query. -/
theorem word_frequency_counts_exact_matches (p : SimpleTextProcessor)
    (w : List Char) :
    word_frequency p w = ((tokenize p).filter (fun x => x = w)).length := by
  show (tokenize p).count w = _
  rw [count_beq_eq_count_dec]
  exact count_eq_filter_length (tokenize p) w

/-- C4: `word_frequency` fails, with an error reporting the actual received
type, exactly when the argument is not a string; on failure the processor
state is unchanged; on a string argument it returns the frequency. -/
theorem word_frequency_dyn_typecheck (p : SimpleTextProcessor) (w : PyVal) :
    (word_frequency_dyn p w).1 = p ∧
    ((word_frequency_dyn p w).2 =
        Except.error ⟨"Expected str, got ".toList ++ typeName w⟩ ↔
      w.isStr = false) ∧
    (∀ s, w = PyVal.str s →
      (word_frequency_dyn p w).2 = Except.ok (word_frequency p s)) := by
  cases w <;> simp [word_frequency_dyn, PyVal.isStr]

theorem word_frequency_dyn_typecheck_witness :
    (word_frequency_dyn ⟨"a b a".toList⟩ (PyVal.str "a".toList)).2 =
      Except.ok 2 ∧
    (word_frequency_dyn ⟨"a b a".toList⟩ PyVal.pyNone).2 =
      Except.error ⟨"Expected str, got NoneType".toList⟩ := by
  constructor
  · rw [(word_frequency_dyn_typecheck ⟨"a b a".toList⟩
      (PyVal.str "a".toList)).2.2 ("a".toList) rfl]
    rfl
  · rw [(word_frequency_dyn_typecheck ⟨"a b a".toList⟩
      PyVal.pyNone).2.1.mpr rfl]
    rfl

/-- C5: the frequencies of the distinct tokens sum to the word count, and a
text with no tokens has word count zero. -/
theorem count_words_eq_sum_frequencies (p : SimpleTextProcessor) :
    ((tokenize p).dedup.map (fun tok => word_frequency p tok)).sum =
      count_words p ∧
    (tokenize p = [] → count_words p = 0) := by
  constructor
  · show ((tokenize p).dedup.map (fun tok => (tokenize p).count tok)).sum =
      (tokenize p).length
    rw [show (fun tok => (tokenize p).count tok) =
      (fun tok => @List.count (List Char) instBEqOfDecidableEq tok (tokenize p))
      from funext (fun tok => count_beq_eq_count_dec (tokenize p) tok)]
    exact List.sum_map_count_dedup_eq_length (tokenize p)
  · intro h
    show (tokenize p).length = 0
    rw [h]
    rfl

theorem count_words_eq_sum_frequencies_witness :
    tokenize ⟨" ".toList⟩ = [] ∧ count_words ⟨" ".toList⟩ = 0 :=
  ⟨by decide, (count_words_eq_sum_frequencies ⟨" ".toList⟩).2 (by decide)⟩

/-- C6: normalization is idempotent. -/
theorem normalize_idempotent (t : List Char) :
    preprocess ⟨preprocess ⟨t⟩⟩ = preprocess ⟨t⟩ := by
  by_cases h : pyStrip t = []
  · have hpre : preprocess ⟨t⟩ = [] := by
      show collapseTabsAux false (pyStrip t) = []
      rw [h]
      rfl
    rw [hpre]
    rfl
  · have hhead := preprocess_headOk t
    have hlast := preprocess_lastOk t
    show collapseTabs (pyStrip (preprocess ⟨t⟩)) = preprocess ⟨t⟩
    unfold pyStrip
    rw [dropWhile_eq_self_of_headOk hhead, rstrip_eq_self_of_lastOk hlast]
    exact collapseTabsAux_eq_self_of_noTabs false
      (collapseTabsAux_noTabs false (pyStrip t))

/-- C7: `count_words` is the length of `tokenize`, is a total function into
the naturals (hence ≥ 0), and the `profile` decorator wrapping it does not
alter behaviour. -/
theorem count_words_is_token_count (p : SimpleTextProcessor) :
    count_words p = (tokenize p).length ∧ 0 ≤ count_words p ∧
    (∀ (f : SimpleTextProcessor → Nat) (q : SimpleTextProcessor),
      profile f q = f q) :=
  ⟨rfl, Nat.zero_le _, fun _ _ => rfl⟩

/-- C8: a non-blank text (whose strip is non-empty) has a non-empty
normalization and a positive word count. -/
theorem nonblank_text_has_words {t : List Char} (h : pyStrip t ≠ []) :
    preprocess ⟨t⟩ ≠ [] ∧ 0 < count_words ⟨t⟩ := by
  refine ⟨preprocess_ne_nil h, ?_⟩
  have htok : tokenize ⟨t⟩ = reSplitWs (preprocess ⟨t⟩) := by
    show (if preprocess ⟨t⟩ = [] then [] else reSplitWs (preprocess ⟨t⟩)) = _
    rw [if_neg (preprocess_ne_nil h)]
  show 0 < (tokenize ⟨t⟩).length
  rw [htok]
  exact List.length_pos.mpr (reSplitWsAux_ne_nil _ false [])

theorem nonblank_text_has_words_witness :
    pyStrip "hi".toList ≠ [] ∧
    (preprocess ⟨"hi".toList⟩ ≠ [] ∧ 0 < count_words ⟨"hi".toList⟩) :=
  ⟨by decide, nonblank_text_has_words (by decide)⟩

/-- C9: the empty string is never a token, so its frequency is zero. -/
theorem empty_word_frequency_zero (p : SimpleTextProcessor) :
    word_frequency p [] = 0 := by
  show (tokenize p).count [] = 0
  rw [List.count_eq_zero]
  intro hmem
  rw [tokenize_eq_wordsAux] at hmem
  exact mem_wordsAux_ne_nil _ [] [] hmem rfl

/-- C10: tokens contain no whitespace characters, so any query word that
contains a whitespace character has frequency zero. -/
theorem tokens_contain_no_whitespace (p : SimpleTextProcessor) :
    (∀ x ∈ tokenize p, ∀ c ∈ x, isPyWs c = false) ∧
    (∀ w : List Char, (∃ c ∈ w, isPyWs c = true) →
      word_frequency p w = 0) := by
  have hmain : ∀ x ∈ tokenize p, ∀ c ∈ x, isPyWs c = false := by
    intro x hx c hc
    rw [tokenize_eq_wordsAux] at hx
    exact mem_wordsAux_no_ws _ []
      (by intro d hd; exact absurd hd (List.not_mem_nil d)) x hx c hc
  refine ⟨hmain, ?_⟩
  intro w hw
  obtain ⟨c, hcw, hc⟩ := hw
  show (tokenize p).count w = 0
  rw [List.count_eq_zero]
  intro hmem
  have h0 := hmain w hmem c hcw
  rw [hc] at h0
  exact absurd h0 (by decide)

theorem tokens_contain_no_whitespace_witness :
    word_frequency ⟨"a b".toList⟩ [' '] = 0 :=
  (tokens_contain_no_whitespace ⟨"a b".toList⟩).2 [' ']
    ⟨' ', by decide, by decide⟩
